import Mathlib

/-!
Verification of the client-side ranking core of the rental-marketplace web app:
text normalization, Levenshtein matching, search ranking, recommendation
scoring, popularity sorting, and the supporting filters, as implemented in
src/app/page.tsx and src/app/product/[id]/ProductDetailClient.tsx.

Strings are modelled as lists of characters, JavaScript numbers as rationals
(prices, recommendation scores) and integers (search scores, view counts).
The stable Array.prototype.sort of the target runtimes is modelled by the
stable List.insertionSort.  Unicode character classes and case mapping are
modelled over the character repertoire the application works with
(Basic Latin, Latin-1 Supplement and Latin Extended-A).
-/

namespace Ebeveyn

/-- Model of the JavaScript regex class \s (whitespace) over Basic Latin
and Latin-1. -/
def jsIsWhitespace (c : Char) : Bool :=
  c = ' ' || c = '\t' || c = '\n' || c = '\r' ||
  c.toNat = 0x0B || c.toNat = 0x0C || c.toNat = 0xA0

/-- Model of the JavaScript regex class \p{L} (Unicode letter) over
Basic Latin, Latin-1 Supplement and Latin Extended-A. -/
def jsIsLetter (c : Char) : Bool :=
  ('a' ≤ c && c ≤ 'z') || ('A' ≤ c && c ≤ 'Z') ||
  c.toNat = 0xAA || c.toNat = 0xB5 || c.toNat = 0xBA ||
  (0xC0 ≤ c.toNat && c.toNat ≤ 0x17F && c.toNat ≠ 0xD7 && c.toNat ≠ 0xF7)

/-- Model of the JavaScript regex class \p{N} (Unicode numeric) over
Basic Latin and Latin-1. -/
def jsIsDigit (c : Char) : Bool :=
  ('0' ≤ c && c ≤ '9') ||
  c.toNat = 0xB2 || c.toNat = 0xB3 || c.toNat = 0xB9 ||
  c.toNat = 0xBC || c.toNat = 0xBD || c.toNat = 0xBE

/-- Model of the JavaScript String.prototype.toLowerCase simple case mapping
over Basic Latin, Latin-1 Supplement and Latin Extended-A.  The dotted
capital I (U+0130) lowercases to a small i followed by a combining dot above,
which is why the result is a list of characters. -/
def jsToLowerChar (c : Char) : List Char :=
  if 'A' ≤ c && c ≤ 'Z' then [Char.ofNat (c.toNat + 32)]
  else if c.toNat = 0x130 then [Char.ofNat 0x69, Char.ofNat 0x307]
  else if 0xC0 ≤ c.toNat && c.toNat ≤ 0xDE && c.toNat ≠ 0xD7 then
    [Char.ofNat (c.toNat + 32)]
  else if 0x100 ≤ c.toNat && c.toNat ≤ 0x137 && c.toNat % 2 = 0 then
    [Char.ofNat (c.toNat + 1)]
  else if 0x139 ≤ c.toNat && c.toNat ≤ 0x148 && c.toNat % 2 = 1 then
    [Char.ofNat (c.toNat + 1)]
  else if 0x14A ≤ c.toNat && c.toNat ≤ 0x177 && c.toNat % 2 = 0 then
    [Char.ofNat (c.toNat + 1)]
  else if c.toNat = 0x178 then [Char.ofNat 0xFF]
  else if 0x179 ≤ c.toNat && c.toNat ≤ 0x17E && c.toNat % 2 = 1 then
    [Char.ofNat (c.toNat + 1)]
  else [c]

/-- Model of String.prototype.toLowerCase on whole strings. -/
def lowerStr (s : List Char) : List Char :=
  s.flatMap jsToLowerChar

/-- The six replaceAll calls of normalizeText in src/app/page.tsx,
folding the lowercase Turkish letters to their ASCII base letters. -/
def foldTurkishChar (c : Char) : Char :=
  if c = 'ı' then 'i'
  else if c = 'ğ' then 'g'
  else if c = 'ü' then 'u'
  else if c = 'ş' then 's'
  else if c = 'ö' then 'o'
  else if c = 'ç' then 'c'
  else c

/-- The replace of every character outside letter, numeric, whitespace and
hyphen by a space, from normalizeText in src/app/page.tsx. -/
def keepOrSpace (c : Char) : Char :=
  if jsIsLetter c || jsIsDigit c || jsIsWhitespace c || c = '-' then c else ' '

/-- The replace of each maximal whitespace run by one space, from
normalizeText in src/app/page.tsx. -/
def collapseWs : List Char → List Char
  | [] => []
  | c :: rest =>
    if jsIsWhitespace c then
      match rest with
      | [] => [' ']
      | d :: _ => if jsIsWhitespace d then collapseWs rest else ' ' :: collapseWs rest
    else c :: collapseWs rest

/-- Model of String.prototype.trim. -/
def trimWs (s : List Char) : List Char :=
  ((s.dropWhile jsIsWhitespace).reverse.dropWhile jsIsWhitespace).reverse

/-- The function normalizeText of src/app/page.tsx: lowercase, fold the six
Turkish letters, replace other punctuation by spaces, collapse whitespace
runs and trim. -/
def normalizeText (s : List Char) : List Char :=
  trimWs (collapseWs (((lowerStr s).map foldTurkishChar).map keepOrSpace))

/-! Levenshtein distance: the DP implementation of src/app/page.tsx and the
classic recursive definition from the specification. -/

/-- Classic Levenshtein distance as the specification states it: insertion,
deletion and substitution each cost one.  This is the specification-side
definition, compared below with the DP implementation. -/
def levSpec : List Char → List Char → Nat
  | [], b => b.length
  | a, [] => a.length
  | x :: xs, y :: ys =>
    min (min (levSpec xs (y :: ys) + 1) (levSpec (x :: xs) ys + 1))
      (levSpec xs ys + if x = y then 0 else 1)
termination_by a b => a.length + b.length

/-- One pass of the inner loop of levenshtein in src/app/page.tsx: given the
current character x of a, the remaining characters of b, the corresponding
tail of the previous DP row (headed by the diagonal cell) and the cell to the
left, produce the rest of the current row. -/
def rowNext (x : Char) : List Char → List Nat → Nat → List Nat
  | [], _, _ => []
  | _ :: _, [], _ => []
  | y :: ys, pd :: prest, left =>
    let pUp := prest.headD 0
    let cur := min (min (pUp + 1) (left + 1)) (pd + if x = y then 0 else 1)
    cur :: rowNext x ys prest cur

/-- The function levenshtein of src/app/page.tsx: early returns for empty
inputs, otherwise the full DP table, built row by row from the border row
0..blen, answering with the bottom-right cell. -/
def levenshtein (a b : List Char) : Nat :=
  if a.length = 0 then b.length
  else if b.length = 0 then a.length
  else
    (a.foldl (fun prev x => (prev.headD 0 + 1) :: rowNext x b prev (prev.headD 0 + 1))
      (List.range (b.length + 1))).getLastD 0

/-- The DP row for the processed prefix p of a: the distances between p and
each prefix of done ++ rem extending done, in terms of levSpec on reversed
lists. -/
def rowSpec (p done rem : List Char) : List Nat :=
  match rem with
  | [] => [levSpec p.reverse done.reverse]
  | y :: ys => levSpec p.reverse done.reverse :: rowSpec p (done ++ [y]) ys


/-- A listing record, the read projection of ProductListItem in
src/app/page.tsx and Product in ProductDetailClient.tsx.  Optional fields
model the string-or-null and array-or-null payload fields. -/
structure Listing where
  id : List Char
  title : List Char
  daily_price : ℚ
  created_at : Option (List Char) := none
  image_url : Option (List Char) := none
  image_urls : Option (List (List Char)) := none
  description : Option (List Char) := none
  tags : Option (List (List Char)) := none
  features : Option (List (List Char)) := none
  owner_email : Option (List Char) := none
  owner_username : Option (List Char) := none
  view_count : Option Int := none
  deriving DecidableEq

/-- JavaScript truthiness of an optional string: null, undefined and the
empty string are falsy. -/
def jsTruthy : Option (List Char) → Bool
  | none => false
  | some s => !s.isEmpty

/-- The string content of an optional string field, empty when absent. -/
def strOr (o : Option (List Char)) : List Char := o.getD []

/-! The search ranker of src/app/page.tsx (filteredProducts). -/

/-- Per-tag normalization used by the tag filter:
String(t).trim().toLowerCase(). -/
def normTag (t : List Char) : List Char := lowerStr (trimWs t)

/-- Step 1 of filteredProducts (src/app/page.tsx lines 137-144): with no
applied tags everything is retained, otherwise only listings whose
normalized tag list contains every applied tag. -/
def tagFilter (appliedTags : List (List Char)) (catalog : List Listing) : List Listing :=
  if appliedTags.length = 0 then catalog
  else catalog.filter (fun p =>
    appliedTags.all (fun tag => ((p.tags.getD []).map normTag).contains tag))

/-- Splitting a string on maximal runs of characters outside a class and
dropping empty segments, as String.prototype.split with a single-class regex
followed by filter(Boolean). -/
def tokensBy (keep : Char → Bool) : List Char → List (List Char)
  | [] => []
  | c :: rest =>
    if keep c then
      match rest with
      | [] => [[c]]
      | d :: _ =>
        if keep d then
          match tokensBy keep rest with
          | t :: ts => (c :: t) :: ts
          | [] => [[c]]
        else [c] :: tokensBy keep rest
    else tokensBy keep rest

/-- The character class of the haystack tokenizer regex: ASCII letters and
digits, case-insensitive. -/
def isAsciiAlnum (c : Char) : Bool :=
  ('a' ≤ c && c ≤ 'z') || ('A' ≤ c && c ≤ 'Z') || ('0' ≤ c && c ≤ '9')

/-- Model of String.prototype.startsWith: the second string is a prefix of
the first. -/
def strStartsWith : List Char → List Char → Bool
  | _, [] => true
  | [], _ :: _ => false
  | c :: cs, d :: ds => (c == d) && strStartsWith cs ds

/-- Model of String.prototype.includes: the second string occurs as a
contiguous substring of the first. -/
def strIncludes : List Char → List Char → Bool
  | [], q => q.isEmpty
  | c :: rest, q => strStartsWith (c :: rest) q || strIncludes rest q

/-- The searchable text of a listing: title, description, tags and features,
space-joined then normalized (src/app/page.tsx lines 151-157). -/
def haystackOf (p : Listing) : List Char :=
  normalizeText (List.intercalate [' ']
    ([p.title, p.description.getD []] ++ p.tags.getD [] ++ p.features.getD []))

/-- The haystack tokens (src/app/page.tsx line 158). -/
def hayTokensOf (p : Listing) : List (List Char) :=
  tokensBy isAsciiAlnum (haystackOf p)

/-- The query tokens: the normalized query split on whitespace runs
(src/app/page.tsx line 148). -/
def qTokensOf (q : List Char) : List (List Char) :=
  tokensBy (fun c => !jsIsWhitespace c) q

/-- The per-token bonus of the search scorer (src/app/page.tsx lines
162-168): +3 for a substring hit, +2 for a token-prefix hit, +2 or +1 for a
best Levenshtein distance of 1 or 2 where the reduce starts from 99. -/
def tokenBonus (hay : List Char) (hayTokens : List (List Char)) (token : List Char) : Nat :=
  (if strIncludes hay token then 3 else 0)
  + (if hayTokens.any (fun t => strStartsWith t token) then 2 else 0)
  + (let bestDistance := hayTokens.foldl (fun m t => min m (levenshtein token t)) 99
     if bestDistance = 1 then 2 else if bestDistance = 2 then 1 else 0)

/-- The total search score of a listing for the normalized query q
(src/app/page.tsx lines 160-170). -/
def scoreOf (q : List Char) (p : Listing) : Nat :=
  (if strIncludes (haystackOf p) q then 8 else 0)
  + (qTokensOf q).foldl (fun s token => s + tokenBonus (haystackOf p) (hayTokensOf p) token) 0
  + 2 * ((qTokensOf q).filter (fun token => (hayTokensOf p).contains token)).length

/-- The search sort comparator b.score - a.score as a total preorder: a may
come before b when the score of a is at least that of b. -/
def scoreDesc (a b : Listing × Nat) : Prop := b.2 ≤ a.2

instance : DecidableRel scoreDesc := fun a b => Nat.decLe b.2 a.2

instance : IsTotal (Listing × Nat) scoreDesc := ⟨fun a b => le_total b.2 a.2⟩

instance : IsTrans (Listing × Nat) scoreDesc := ⟨fun _ _ _ h1 h2 => le_trans h2 h1⟩

/-- The search ranker (filteredProducts of src/app/page.tsx lines 137-177):
tag filter, then, when the normalized query is non-empty, scoring, the
score-positive filter and the stable sort by score descending. -/
def rank (catalog : List Listing) (appliedTags : List (List Char))
    (searchApplied : List Char) : List Listing :=
  let base := tagFilter appliedTags catalog
  let q := normalizeText searchApplied
  if q.isEmpty then base
  else
    let scored := (base.map (fun p => (p, scoreOf q p))).filter (fun x => decide (0 < x.2))
    (List.insertionSort scoreDesc scored).map (fun x => x.1)

/-! The popularity sorter of src/app/page.tsx (popularProducts). -/

/-- Number(a.view_count || 0). -/
def viewOf (p : Listing) : Int := p.view_count.getD 0

/-- String(a.created_at || ""). -/
def createdOf (p : Listing) : List Char := p.created_at.getD []

/-- Lexicographic string comparison, modelling localeCompare on the ISO-8601
timestamp strings the application stores: true when the first string is less
than or equal to the second. -/
def lexLe : List Char → List Char → Bool
  | [], _ => true
  | _ :: _, [] => false
  | a :: as, b :: bs => if a < b then true else if b < a then false else lexLe as bs

/-- The popularity comparator (src/app/page.tsx lines 182-187) as a total
preorder: view count descending, ties by created_at string descending. -/
def popLe (a b : Listing) : Prop :=
  viewOf b < viewOf a ∨ (viewOf a = viewOf b ∧ lexLe (createdOf b) (createdOf a) = true)

instance : DecidableRel popLe := fun a b => by unfold popLe; infer_instance

/-- The popularity sorter. -/
def sortByPopularity (catalog : List Listing) : List Listing :=
  List.insertionSort popLe catalog

/-- popularProducts of src/app/page.tsx lines 180-189: the four most popular
listings. -/
def popularProducts (catalog : List Listing) : List Listing :=
  (sortByPopularity catalog).take 4

/-! The signed-in owner filter of src/app/page.tsx (visibleProducts). -/

/-- visibleProducts of src/app/page.tsx lines 118-123: with a signed-in
viewer, listings with a truthy owner_email equal to the viewer email,
case-insensitively, are removed; everything else is retained. -/
def visibleProducts (userEmail : Option (List Char)) (products : List Listing) :
    List Listing :=
  if !jsTruthy userEmail then products
  else products.filter (fun p =>
    !jsTruthy p.owner_email
      || !(lowerStr (strOr p.owner_email) == lowerStr (strOr userEmail)))

/-- The home page search results: the ranker applied to the visible
catalog. -/
def homeFiltered (userEmail : Option (List Char)) (products : List Listing)
    (appliedTags : List (List Char)) (searchApplied : List Char) : List Listing :=
  rank (visibleProducts userEmail products) appliedTags searchApplied

/-- The home page popular carousel: the popularity sorter applied to the
visible catalog. -/
def homePopular (userEmail : Option (List Char)) (products : List Listing) : List Listing :=
  popularProducts (visibleProducts userEmail products)

/-! The recommendation scorer of ProductDetailClient.tsx
(recommendedProducts). -/

/-- The exclusion and ownership filter of recommendedProducts
(ProductDetailClient.tsx lines 140, 148-159): drop listings in the exclusion
set and listings owned by the signed-in viewer. -/
def recommendCandidates (allProducts : List Listing) (safeId : List Char)
    (recentIds rentedProductIds : List (List Char))
    (currentUserEmail : Option (List Char)) : List Listing :=
  let excluded := safeId :: (recentIds ++ rentedProductIds)
  allProducts.filter (fun p =>
    !excluded.contains p.id &&
    !(jsTruthy currentUserEmail && jsTruthy p.owner_email &&
      (lowerStr (strOr p.owner_email) == lowerStr (strOr currentUserEmail))))

/-- The viewed-tags set: the tags of the recently viewed products plus the
tags of the focal product (ProductDetailClient.tsx lines 141-146). -/
def viewedTagsOf (product : Listing) (recentProducts : List Listing) : List (List Char) :=
  recentProducts.flatMap (fun p => p.tags.getD []) ++ product.tags.getD []

/-- priceScore of recommendedProducts (lines 165-167): the ratio of the
absolute price difference to the focal price floored at one, decayed from 3
and clamped at 0. -/
def priceScoreOf (product p : Listing) : ℚ :=
  max 0 (3 - |p.daily_price - product.daily_price| / max product.daily_price 1 * 3)

/-- The recommendation score (ProductDetailClient.tsx lines 160-167). -/
def recommendScore (product : Listing) (recentProducts : List Listing) (p : Listing) : ℚ :=
  let viewedOverlap : ℚ := (p.tags.getD []).foldl
    (fun acc t => acc + if (viewedTagsOf product recentProducts).contains t then 1 else 0) 0
  let currentOverlap : ℚ := (p.tags.getD []).foldl
    (fun acc t => acc + if (product.tags.getD []).contains t then 1 else 0) 0
  viewedOverlap * 2 + currentOverlap * 3 + priceScoreOf product p

/-- The recommendation sort comparator b.score - a.score as a total
preorder. -/
def recScoreDesc (a b : Listing × ℚ) : Prop := b.2 ≤ a.2

instance : DecidableRel recScoreDesc := fun a b => inferInstanceAs (Decidable (b.2 ≤ a.2))

instance : IsTotal (Listing × ℚ) recScoreDesc := ⟨fun a b => le_total b.2 a.2⟩

instance : IsTrans (Listing × ℚ) recScoreDesc := ⟨fun _ _ _ h1 h2 => le_trans h2 h1⟩

/-- recommendedProducts of ProductDetailClient.tsx lines 137-171: empty for
an empty catalog, otherwise the candidates scored, stably sorted by score
descending, first four. -/
def recommend (allProducts : List Listing) (product : Listing) (safeId : List Char)
    (recentIds rentedProductIds : List (List Char)) (recentProducts : List Listing)
    (currentUserEmail : Option (List Char)) : List Listing :=
  if allProducts.isEmpty then []
  else
    let scored := (recommendCandidates allProducts safeId recentIds rentedProductIds
        currentUserEmail).map (fun p => (p, recommendScore product recentProducts p))
    ((List.insertionSort recScoreDesc scored).map (fun x => x.1)).take 4

/-! The rental exclusion of loadUserContext in ProductDetailClient.tsx. -/

/-- A rental record as the rental endpoint returns it, reduced to the two
fields the client reads. -/
structure RentalRecord where
  product_id : Option (List Char) := none
  status : Option (List Char) := none
  deriving DecidableEq

/-- rentedProductIds of loadUserContext (ProductDetailClient.tsx lines
305-309): the ids of records with a present non-empty product_id whose
status, lowercased, is not rejected, deduplicated.  The JavaScript Set is
modelled by List.dedup, which has the same membership. -/
def rentedIdsOf (rentals : List RentalRecord) : List (List Char) :=
  (((rentals.filter (fun r => jsTruthy r.product_id)).filter
      (fun r => !(lowerStr (strOr r.status) == "rejected".toList))).map
    (fun r => strOr r.product_id)).dedup

/-- The status of the viewer's latest known rental for a listing id: the
rental endpoint returns records most recent first, so it is the status of
the first record carrying that id. -/
def latestStatusFor (rentals : List RentalRecord) (pid : List Char) : Option (List Char) :=
  (rentals.find? (fun r => decide (r.product_id = some pid))).map (fun r => strOr r.status)

/-- Whether the latest known rental for a listing id exists and has a status
other than rejected, case-insensitively: the exclusion criterion the
specification states. -/
def latestNonRejected (rentals : List RentalRecord) (pid : List Char) : Bool :=
  match latestStatusFor rentals pid with
  | none => false
  | some st => !(lowerStr st == "rejected".toList)

/-! Concrete fixtures used by the witness theorems. -/

/-- A fixture listing with one tag. -/
def W1 : Listing :=
  { id := "w1".toList, title := "W".toList, daily_price := 5, tags := some ["Bebek".toList] }

/-- A fixture listing matching the query bebek. -/
def W2 : Listing :=
  { id := "w2".toList, title := "Bebek".toList, daily_price := 5 }

/-- A fixture listing used as a focal product. -/
def W3 : Listing :=
  { id := "w3".toList, title := "F".toList, daily_price := 5, owner_email := some "o@x".toList }

/-- A fixture listing owned by the fixture viewer. -/
def W4 : Listing :=
  { id := "w4".toList, title := "G".toList, daily_price := 5, owner_email := some "V@x".toList }


/-! The search score as the specification words it. -/

/-- The per-token bonus as the specification states it: +3 when the token is
a substring of the haystack, +2 when some haystack token starts with it, +2
when the minimum edit distance to any haystack token is 1, else +1 when that
minimum is 2.  Specification-side definition compared with tokenBonus. -/
def specTokenBonus (hay : List Char) (hayTokens : List (List Char)) (token : List Char) : Nat :=
  (if token <:+: hay then 3 else 0)
  + (if ∃ t ∈ hayTokens, token <+: t then 2 else 0)
  + (match (hayTokens.map (levSpec token)).min? with
     | none => 0
     | some m => if m = 1 then 2 else if m = 2 then 1 else 0)

/-- The total search score as the specification states it: +8 for a full
query substring hit, the per-token bonuses, and twice the number of query
tokens that exactly equal some haystack token.  Specification-side
definition compared with scoreOf. -/
def scoreSpec (q : List Char) (p : Listing) : Nat :=
  (if q <:+: haystackOf p then 8 else 0)
  + ((qTokensOf q).map (specTokenBonus (haystackOf p) (hayTokensOf p))).sum
  + 2 * (qTokensOf q).countP (fun token => decide (token ∈ hayTokensOf p))


/-! Support lemmas about the normalization pipeline. -/

theorem collapseWs_cons_of_not_ws {c : Char} {rest : List Char}
    (h : jsIsWhitespace c = false) :
    collapseWs (c :: rest) = c :: collapseWs rest := by
  simp [collapseWs, h]

theorem collapseWs_ws_nil {c : Char} (h : jsIsWhitespace c = true) :
    collapseWs [c] = [' '] := by
  simp [collapseWs, h]

theorem collapseWs_ws_ws {c d : Char} {rest : List Char}
    (hc : jsIsWhitespace c = true) (hd : jsIsWhitespace d = true) :
    collapseWs (c :: d :: rest) = collapseWs (d :: rest) := by
  simp [collapseWs, hc, hd]

theorem collapseWs_ws_not_ws {c d : Char} {rest : List Char}
    (hc : jsIsWhitespace c = true) (hd : jsIsWhitespace d = false) :
    collapseWs (c :: d :: rest) = ' ' :: collapseWs (d :: rest) := by
  simp [collapseWs, hc, hd]

theorem mem_collapseWs : ∀ (s : List Char) (c : Char), c ∈ collapseWs s →
    c = ' ' ∨ (c ∈ s ∧ jsIsWhitespace c = false)
  | [], c => by simp [collapseWs]
  | a :: rest, c => by
    intro hmem
    by_cases ha : jsIsWhitespace a
    · match rest with
      | [] =>
        rw [collapseWs_ws_nil ha] at hmem
        simp at hmem
        exact Or.inl hmem
      | d :: rest' =>
        by_cases hd : jsIsWhitespace d
        · rw [collapseWs_ws_ws ha hd] at hmem
          rcases mem_collapseWs (d :: rest') c hmem with h | ⟨h1, h2⟩
          · exact Or.inl h
          · exact Or.inr ⟨List.mem_cons_of_mem a h1, h2⟩
        · rw [collapseWs_ws_not_ws ha (by simpa using hd)] at hmem
          rcases List.mem_cons.mp hmem with h | h
          · exact Or.inl h
          · rcases mem_collapseWs (d :: rest') c h with h | ⟨h1, h2⟩
            · exact Or.inl h
            · exact Or.inr ⟨List.mem_cons_of_mem a h1, h2⟩
    · rw [collapseWs_cons_of_not_ws (by simpa using ha)] at hmem
      rcases List.mem_cons.mp hmem with h | h
      · exact Or.inr ⟨h ▸ List.mem_cons_self a rest, h ▸ by simpa using ha⟩
      · rcases mem_collapseWs rest c h with h | ⟨h1, h2⟩
        · exact Or.inl h
        · exact Or.inr ⟨List.mem_cons_of_mem a h1, h2⟩

/-- In the output of collapseWs no two adjacent characters are both
whitespace. -/
theorem chain'_collapseWs : ∀ s : List Char,
    List.Chain' (fun a b => ¬(jsIsWhitespace a = true ∧ jsIsWhitespace b = true))
      (collapseWs s)
  | [] => by simp [collapseWs]
  | a :: rest => by
    by_cases ha : jsIsWhitespace a
    · match rest with
      | [] =>
        rw [collapseWs_ws_nil ha]
        simp
      | d :: rest' =>
        by_cases hd : jsIsWhitespace d
        · rw [collapseWs_ws_ws ha hd]
          exact chain'_collapseWs (d :: rest')
        · rw [collapseWs_ws_not_ws ha (by simpa using hd)]
          rw [collapseWs_cons_of_not_ws (by simpa using hd)]
          refine List.chain'_cons'.mpr ⟨?_, ?_⟩
          · intro y hy
            simp only [List.head?_cons, Option.mem_def, Option.some.injEq] at hy
            subst hy
            simp [hd]
          · rw [← collapseWs_cons_of_not_ws (by simpa using hd)]
            exact chain'_collapseWs (d :: rest')
    · rw [collapseWs_cons_of_not_ws (by simpa using ha)]
      refine List.chain'_cons'.mpr ⟨?_, chain'_collapseWs rest⟩
      intro y _
      simp [ha]

theorem head?_dropWhile_false (p : Char → Bool) :
    ∀ (l : List Char) (c : Char), (l.dropWhile p).head? = some c → p c = false
  | [], c => by simp
  | a :: l, c => by
    rw [List.dropWhile_cons]
    by_cases ha : p a
    · rw [if_pos ha]
      exact head?_dropWhile_false p l c
    · rw [if_neg ha]
      intro h
      simp only [List.head?_cons, Option.some.injEq] at h
      subst h
      simpa using ha

theorem getLast?_dropWhile_of_ne_nil (p : Char → Bool) :
    ∀ l : List Char, l.dropWhile p ≠ [] → (l.dropWhile p).getLast? = l.getLast?
  | [], h => by simp at h
  | a :: l, h => by
    rw [List.dropWhile_cons] at h ⊢
    by_cases ha : p a
    · rw [if_pos ha] at h ⊢
      rw [getLast?_dropWhile_of_ne_nil p l h]
      match l, h with
      | b :: l', _ => rw [List.getLast?_cons_cons]
      | [], h => simp at h
    · rw [if_neg ha]

theorem head?_trimWs_not_ws (s : List Char) (c : Char)
    (h : (trimWs s).head? = some c) : jsIsWhitespace c = false := by
  unfold trimWs at h
  rw [List.head?_reverse] at h
  rcases hne : ((s.dropWhile jsIsWhitespace).reverse.dropWhile jsIsWhitespace) with _ | ⟨e, D⟩
  · rw [hne] at h; simp at h
  · have hnn : (s.dropWhile jsIsWhitespace).reverse.dropWhile jsIsWhitespace ≠ [] := by
      rw [hne]; simp
    rw [getLast?_dropWhile_of_ne_nil _ _ hnn, List.getLast?_reverse] at h
    exact head?_dropWhile_false _ _ _ h

theorem getLast?_trimWs_not_ws (s : List Char) (c : Char)
    (h : (trimWs s).getLast? = some c) : jsIsWhitespace c = false := by
  unfold trimWs at h
  rw [List.getLast?_reverse] at h
  exact head?_dropWhile_false _ _ _ h

theorem mem_trimWs (s : List Char) (c : Char) (h : c ∈ trimWs s) : c ∈ s := by
  unfold trimWs at h
  rw [List.mem_reverse] at h
  have h1 := (List.dropWhile_suffix jsIsWhitespace).sublist.subset h
  rw [List.mem_reverse] at h1
  exact (List.dropWhile_suffix jsIsWhitespace).sublist.subset h1

theorem chain'_trimWs {R : Char → Char → Prop} (hsym : ∀ a b, R a b → R b a)
    (s : List Char) (h : List.Chain' R s) : List.Chain' R (trimWs s) := by
  unfold trimWs
  rw [List.chain'_reverse]
  refine List.Chain'.imp (fun a b hab => hsym a b hab) ?_
  refine List.Chain'.suffix ?_ (List.dropWhile_suffix jsIsWhitespace)
  rw [List.chain'_reverse]
  refine List.Chain'.imp (fun a b hab => hsym a b hab) ?_
  exact List.Chain'.suffix h (List.dropWhile_suffix jsIsWhitespace)

/-- C8: normalizeText is total (empty string in, empty string out); its
replaceAll stage folds exactly ı, ğ, ü, ş, ö, ç and leaves every other
character unchanged; every character of the output is a letter, a digit, a
hyphen or a single space; the output has no leading or trailing whitespace
and no two adjacent whitespace characters (whitespace runs are collapsed);
and normalizeText applied to the string Şişe Dolabı! yields sise dolabi. -/
theorem C8_normalizeText_spec :
    normalizeText [] = []
    ∧ (foldTurkishChar 'ı' = 'i' ∧ foldTurkishChar 'ğ' = 'g' ∧ foldTurkishChar 'ü' = 'u'
       ∧ foldTurkishChar 'ş' = 's' ∧ foldTurkishChar 'ö' = 'o' ∧ foldTurkishChar 'ç' = 'c'
       ∧ ∀ c : Char, c ∉ (['ı', 'ğ', 'ü', 'ş', 'ö', 'ç'] : List Char) → foldTurkishChar c = c)
    ∧ (∀ (s : List Char) (c : Char), c ∈ normalizeText s →
        c = ' ' ∨ ((jsIsLetter c || jsIsDigit c || c = '-') = true ∧ jsIsWhitespace c = false))
    ∧ (∀ (s : List Char) (c : Char), (normalizeText s).head? = some c → jsIsWhitespace c = false)
    ∧ (∀ (s : List Char) (c : Char), (normalizeText s).getLast? = some c → jsIsWhitespace c = false)
    ∧ (∀ s : List Char,
        List.Chain' (fun a b => ¬(jsIsWhitespace a = true ∧ jsIsWhitespace b = true))
          (normalizeText s))
    ∧ normalizeText "Şişe Dolabı!".toList = "sise dolabi".toList := by
  refine ⟨by decide, ⟨by decide, by decide, by decide, by decide, by decide, by decide, ?_⟩,
    ?_, ?_, ?_, ?_, by decide⟩
  · intro c hc
    simp only [List.mem_cons, List.not_mem_nil, or_false, not_or] at hc
    obtain ⟨h1, h2, h3, h4, h5, h6⟩ := hc
    simp [foldTurkishChar, h1, h2, h3, h4, h5, h6]
  · intro s c hc
    have h1 := mem_trimWs _ _ hc
    rcases mem_collapseWs _ _ h1 with h | ⟨h2, h3⟩
    · exact Or.inl h
    · right
      refine ⟨?_, h3⟩
      rcases List.mem_map.mp h2 with ⟨x, _, hx⟩
      by_cases hk : (jsIsLetter x || jsIsDigit x || jsIsWhitespace x || x = '-') = true
      · have hcx : c = x := by rw [← hx]; simp [keepOrSpace, hk]
        subst hcx
        simp only [Bool.or_eq_true, decide_eq_true_eq] at hk ⊢
        rcases hk with ((hl | hd2) | hw) | hh
        · exact Or.inl (Or.inl hl)
        · exact Or.inl (Or.inr hd2)
        · simp [hw] at h3
        · exact Or.inr hh
      · have hcs : c = ' ' := by rw [← hx]; simp [keepOrSpace, hk]
        subst hcs
        simp [jsIsWhitespace] at h3
  · intro s c hc
    exact head?_trimWs_not_ws _ _ hc
  · intro s c hc
    exact getLast?_trimWs_not_ws _ _ hc
  · intro s
    exact chain'_trimWs (fun a b hab => by tauto) _ (chain'_collapseWs _)

/-- Witness for C8 at a concrete input. -/
theorem C8_witness :
    'a' ∈ normalizeText "ab!".toList
    ∧ ('a' = ' '
       ∨ ((jsIsLetter 'a' || jsIsDigit 'a' || 'a' = '-') = true
          ∧ jsIsWhitespace 'a' = false)) :=
  ⟨by decide, C8_normalizeText_spec.2.2.1 "ab!".toList 'a' (by decide)⟩


theorem levSpec_nil_left (b : List Char) : levSpec [] b = b.length := by
  simp [levSpec]

theorem levSpec_nil_right (a : List Char) : levSpec a [] = a.length := by
  cases a <;> simp [levSpec]

theorem levSpec_cons_cons (x y : Char) (xs ys : List Char) :
    levSpec (x :: xs) (y :: ys) =
      min (min (levSpec xs (y :: ys) + 1) (levSpec (x :: xs) ys + 1))
        (levSpec xs ys + if x = y then 0 else 1) := by
  simp [levSpec]

theorem minMinAdd (a b c k : Nat) :
    min (min a b) c + k = min (min (a + k) (b + k)) (c + k) := by
  omega

set_option maxHeartbeats 1000000 in
/-- The recurrence of levSpec also holds when appending one character to each
input, which is the step a prefix-directed DP table takes. -/
theorem levSpec_snoc (u v : List Char) (x y : Char) :
    levSpec (u ++ [x]) (v ++ [y]) =
      min (min (levSpec u (v ++ [y]) + 1) (levSpec (u ++ [x]) v + 1))
        (levSpec u v + if x = y then 0 else 1) := by
  induction u generalizing v with
  | nil =>
    induction v with
    | nil => simp [levSpec]
    | cons b v' ihv =>
      simp only [List.nil_append, List.cons_append] at ihv ⊢
      simp only [levSpec_cons_cons, levSpec_nil_left, List.length_cons, List.length_append,
        List.length_nil]
      rw [ihv]
      simp only [levSpec_nil_left, List.length_append, List.length_cons, List.length_nil]
      simp only [minMinAdd]
      simp only [Nat.add_assoc, Nat.add_comm, Nat.add_left_comm]
      ac_rfl
  | cons a u' ihu =>
    induction v with
    | nil =>
      simp only [List.nil_append, List.cons_append] at ihu ⊢
      simp only [levSpec_cons_cons, levSpec_nil_right, List.length_cons, List.length_append,
        List.length_nil]
      have h1 := ihu []
      simp only [List.nil_append, levSpec_nil_right, List.length_nil] at h1
      rw [h1]
      simp only [List.length_append, List.length_cons, List.length_nil]
      simp only [minMinAdd]
      simp only [Nat.add_assoc, Nat.add_comm, Nat.add_left_comm]
      ac_rfl
    | cons b v' ihv =>
      simp only [List.cons_append] at ihv ⊢
      have h1 := ihu (b :: v')
      simp only [List.cons_append] at h1
      have h2 := ihu v'
      rw [levSpec_cons_cons a b (u' ++ [x]) (v' ++ [y]), h1, h2, ihv,
        levSpec_cons_cons a b u' (v' ++ [y]), levSpec_cons_cons a b (u' ++ [x]) v',
        levSpec_cons_cons a b u' v']
      simp only [minMinAdd]
      simp only [Nat.add_assoc, Nat.add_comm, Nat.add_left_comm]
      ac_rfl

theorem levSpec_reverse_aux :
    ∀ (n : Nat) (a b : List Char), a.length + b.length ≤ n →
      levSpec a.reverse b.reverse = levSpec a b := by
  intro n
  induction n with
  | zero =>
    intro a b h
    have ha : a = [] := List.length_eq_zero.mp (by omega)
    have hb : b = [] := List.length_eq_zero.mp (by omega)
    subst ha; subst hb; rfl
  | succ n ih =>
    intro a b h
    match a, b with
    | [], b => simp [levSpec_nil_left]
    | a, [] => simp [levSpec_nil_right, levSpec_nil_left]
    | x :: xs, y :: ys =>
      rw [List.reverse_cons, List.reverse_cons, levSpec_snoc]
      rw [← List.reverse_cons y ys, ← List.reverse_cons x xs]
      have h1 : xs.length + (y :: ys).length ≤ n := by simp at h ⊢; omega
      have h2 : (x :: xs).length + ys.length ≤ n := by simp at h ⊢; omega
      have h3 : xs.length + ys.length ≤ n := by simp at h ⊢; omega
      rw [ih xs (y :: ys) h1, ih (x :: xs) ys h2, ih xs ys h3, levSpec_cons_cons]

theorem levSpec_reverse (a b : List Char) :
    levSpec a.reverse b.reverse = levSpec a b :=
  levSpec_reverse_aux (a.length + b.length) a b le_rfl

theorem levSpec_self : ∀ a : List Char, levSpec a a = 0
  | [] => by simp [levSpec_nil_left]
  | x :: xs => by
    rw [levSpec_cons_cons]
    have := levSpec_self xs
    simp [this]

theorem rowSpec_headD (p done rem : List Char) :
    (rowSpec p done rem).headD 0 = levSpec p.reverse done.reverse := by
  cases rem <;> simp [rowSpec]

/-- rowNext, fed the row of the prefix p, computes the row of the prefix
p ++ [x]. -/
theorem rowNext_spec :
    ∀ (rem done p : List Char) (x : Char),
      levSpec (x :: p.reverse) done.reverse
          :: rowNext x rem (rowSpec p done rem) (levSpec (x :: p.reverse) done.reverse)
        = rowSpec (p ++ [x]) done rem := by
  intro rem
  induction rem with
  | nil =>
    intro done p x
    simp [rowSpec, rowNext, List.reverse_append]
  | cons y ys ih =>
    intro done p x
    simp only [rowSpec, rowNext]
    have hhead : (rowSpec p (done ++ [y]) ys).headD 0
        = levSpec p.reverse (y :: done.reverse) := by
      rw [rowSpec_headD]
      simp [List.reverse_append]
    have hcur :
        min (min ((rowSpec p (done ++ [y]) ys).headD 0 + 1)
            (levSpec (x :: p.reverse) done.reverse + 1))
          (levSpec p.reverse done.reverse + if x = y then 0 else 1)
        = levSpec (x :: p.reverse) (y :: done.reverse) := by
      rw [hhead, levSpec_cons_cons]
    rw [hcur]
    have := ih (done ++ [y]) p x
    simp only [List.reverse_append, List.reverse_cons, List.reverse_nil, List.nil_append,
      List.singleton_append] at this ⊢
    rw [this]

/-- Folding the rows over the characters of a turns the row of p into the row
of p ++ a. -/
theorem foldl_rows (b : List Char) :
    ∀ (arem p : List Char),
      arem.foldl
          (fun prev x => (prev.headD 0 + 1) :: rowNext x b prev (prev.headD 0 + 1))
          (rowSpec p [] b)
        = rowSpec (p ++ arem) [] b := by
  intro arem
  induction arem with
  | nil => intro p; simp
  | cons x arem' ih =>
    intro p
    rw [List.foldl_cons]
    have hhead : (rowSpec p [] b).headD 0 + 1 = levSpec (x :: p.reverse) List.nil.reverse := by
      rw [rowSpec_headD]
      simp [levSpec_nil_right]
    rw [hhead, rowNext_spec b [] p x, ih (p ++ [x])]
    simp

theorem rowSpec_getLastD :
    ∀ (rem done p : List Char) (d : Nat),
      (rowSpec p done rem).getLastD d = levSpec p.reverse (done ++ rem).reverse := by
  intro rem
  induction rem with
  | nil => intro done p d; simp [rowSpec]
  | cons y ys ih =>
    intro done p d
    simp only [rowSpec, List.getLastD_cons]
    rw [ih (done ++ [y]) p]
    simp

theorem rowSpec_nil_eq_range' :
    ∀ (rem done : List Char), rowSpec [] done rem = List.range' done.length (rem.length + 1) := by
  intro rem
  induction rem with
  | nil => intro done; simp [rowSpec, levSpec_nil_left, List.range']
  | cons y ys ih =>
    intro done
    simp only [rowSpec, levSpec_nil_left, List.reverse_nil, List.length_cons]
    rw [ih (done ++ [y])]
    simp [List.range'_succ]

/-- The DP implementation computes the classic Levenshtein distance. -/
theorem levenshtein_eq_levSpec (a b : List Char) : levenshtein a b = levSpec a b := by
  unfold levenshtein
  by_cases ha : a.length = 0
  · have ha' : a = [] := List.length_eq_zero.mp ha
    subst ha'
    simp [levSpec_nil_left]
  · by_cases hb : b.length = 0
    · have hb' : b = [] := List.length_eq_zero.mp hb
      subst hb'
      simp [levSpec_nil_right, ha]
    · rw [if_neg ha, if_neg hb]
      have h0 : List.range (b.length + 1) = rowSpec [] [] b := by
        rw [rowSpec_nil_eq_range', List.range_eq_range']
        rfl
      rw [h0, foldl_rows b a [], rowSpec_getLastD]
      simp only [List.nil_append]
      exact levSpec_reverse a b

/-- C7: the edit-distance function is the classic Levenshtein distance with
unit insertion, deletion and substitution costs; in particular the distance
from the empty string to b is the length of b, the distance from a string to
itself is 0, and the distance from kitten to sitting is 3. -/
theorem C7_levenshtein_classic :
    (∀ a b : List Char, levenshtein a b = levSpec a b)
    ∧ (∀ b : List Char, levenshtein [] b = b.length)
    ∧ (∀ a : List Char, levenshtein a a = 0)
    ∧ levenshtein "kitten".toList "sitting".toList = 3 := by
  refine ⟨levenshtein_eq_levSpec, ?_, ?_, by decide⟩
  · intro b
    simp [levenshtein]
  · intro a
    rw [levenshtein_eq_levSpec, levSpec_self]

/-! Data model: the listing records consumed by the ranking core. -/
/-! Support lemmas for the search ranker. -/

theorem tagFilter_nil (catalog : List Listing) : tagFilter [] catalog = catalog := by
  simp [tagFilter]

theorem mem_tagFilter_subset {ats : List (List Char)} {catalog : List Listing} {p : Listing}
    (hp : p ∈ tagFilter ats catalog) : p ∈ catalog := by
  unfold tagFilter at hp
  by_cases h : ats.length = 0
  · rwa [if_pos h] at hp
  · rw [if_neg h] at hp
    exact (List.mem_filter.mp hp).1

theorem mem_tagFilter_tags {ats : List (List Char)} {catalog : List Listing} {p : Listing}
    (h : p ∈ tagFilter ats catalog) : ∀ t ∈ ats, t ∈ (p.tags.getD []).map normTag := by
  intro t ht
  unfold tagFilter at h
  by_cases ha : ats.length = 0
  · have h0 : ats = [] := List.length_eq_zero.mp ha
    subst h0
    simp at ht
  · rw [if_neg ha] at h
    have h2 := (List.mem_filter.mp h).2
    rw [List.all_eq_true] at h2
    have h3 := h2 t ht
    simpa [List.contains, List.elem_iff] using h3

theorem rank_empty_q {catalog : List Listing} {ats : List (List Char)} {s : List Char}
    (h : (normalizeText s).isEmpty = true) :
    rank catalog ats s = tagFilter ats catalog := by
  simp [rank, h]

theorem rank_pos_q {catalog : List Listing} {ats : List (List Char)} {s : List Char}
    (h : ¬(normalizeText s).isEmpty = true) :
    rank catalog ats s =
      (List.insertionSort scoreDesc
        (((tagFilter ats catalog).map (fun p => (p, scoreOf (normalizeText s) p))).filter
          (fun x => decide (0 < x.2)))).map (fun x => x.1) := by
  simp [rank, h]

theorem mem_rank_tagFilter {catalog : List Listing} {ats : List (List Char)} {s : List Char}
    {p : Listing} (h : p ∈ rank catalog ats s) : p ∈ tagFilter ats catalog := by
  by_cases hq : (normalizeText s).isEmpty = true
  · rwa [rank_empty_q hq] at h
  · rw [rank_pos_q hq] at h
    rcases List.mem_map.mp h with ⟨x, hx, rfl⟩
    have hx1 := (List.mem_insertionSort scoreDesc).mp hx
    have hx2 := (List.mem_filter.mp hx1).1
    rcases List.mem_map.mp hx2 with ⟨p', hp', rfl⟩
    exact hp'

/-- C1: every listing the search ranker returns carries, in trimmed
lowercased form, every applied tag; and the tag filter with no applied tags
excludes nothing. -/
theorem C1_tag_filter_superset :
    (∀ (catalog : List Listing) (appliedTags : List (List Char)) (searchApplied : List Char)
        (p : Listing), p ∈ rank catalog appliedTags searchApplied →
          ∀ t ∈ appliedTags, t ∈ (p.tags.getD []).map normTag)
    ∧ ∀ catalog : List Listing, tagFilter [] catalog = catalog := by
  refine ⟨?_, tagFilter_nil⟩
  intro catalog ats s p hp
  exact mem_tagFilter_tags (mem_rank_tagFilter hp)

/-- Witness for C1 at a concrete catalog, tag set and query. -/
theorem C1_witness :
    W1 ∈ rank [W1] ["bebek".toList] []
    ∧ "bebek".toList ∈ (["bebek".toList] : List (List Char))
    ∧ "bebek".toList ∈ (W1.tags.getD []).map normTag :=
  ⟨by decide, by decide,
    C1_tag_filter_superset.1 [W1] ["bebek".toList] [] W1 (by decide) ("bebek".toList)
      (by decide)⟩

/-- C6: for a query with non-empty normalization, the ranker returns exactly
the tag-filtered listings with positive score, in score-descending order,
and listings with equal scores keep their relative input order. -/
theorem C6_rank_score_order (catalog : List Listing) (ats : List (List Char)) (s : List Char)
    (hq : normalizeText s ≠ []) :
    (rank catalog ats s).Perm
        ((tagFilter ats catalog).filter (fun p => decide (0 < scoreOf (normalizeText s) p)))
    ∧ (rank catalog ats s).Pairwise
        (fun a b => scoreOf (normalizeText s) b ≤ scoreOf (normalizeText s) a)
    ∧ (∀ n : Nat,
        (rank catalog ats s).filter (fun p => decide (scoreOf (normalizeText s) p = n))
          = ((tagFilter ats catalog).filter
                (fun p => decide (0 < scoreOf (normalizeText s) p))).filter
              (fun p => decide (scoreOf (normalizeText s) p = n))) := by
  have hq' : ¬(normalizeText s).isEmpty = true := by
    simpa [List.isEmpty_iff] using hq
  rw [rank_pos_q hq']
  set q := normalizeText s with hqdef
  set base := tagFilter ats catalog with hbase
  set f : Listing → Listing × Nat := fun p => (p, scoreOf q p) with hf
  set keep := base.filter (fun p => decide (0 < scoreOf q p)) with hkeep
  have hscored : (base.map f).filter (fun x => decide (0 < x.2)) = keep.map f := by
    rw [hkeep, List.filter_map]
    rfl
  rw [hscored]
  set sorted := List.insertionSort scoreDesc (keep.map f) with hsorted
  have hmem2 : ∀ x ∈ sorted, x.2 = scoreOf q x.1 := by
    intro x hx
    have hx1 := (List.mem_insertionSort scoreDesc).mp hx
    rcases List.mem_map.mp hx1 with ⟨p', _, rfl⟩
    rfl
  have hperm : sorted.Perm (keep.map f) := List.perm_insertionSort _ _
  refine ⟨?_, ?_, ?_⟩
  · have h1 := hperm.map (fun x : Listing × Nat => x.1)
    have hcomp : ((fun x : Listing × Nat => x.1) ∘ f) = id := rfl
    rw [List.map_map, hcomp, List.map_id] at h1
    exact h1
  · have hsort : sorted.Pairwise scoreDesc := List.sorted_insertionSort scoreDesc _
    have hsort2 : sorted.Pairwise (fun x y => scoreOf q y.1 ≤ scoreOf q x.1) := by
      refine hsort.imp_of_mem ?_
      intro a b ha hb hab
      rw [← hmem2 a ha, ← hmem2 b hb]
      exact hab
    rw [List.pairwise_map]
    exact hsort2
  · intro n
    set P : Listing × Nat → Bool := fun x => decide (x.2 = n) with hP
    have hpair : (List.filter P (keep.map f)).Pairwise scoreDesc := by
      refine List.pairwise_of_forall_mem_list ?_
      intro a ha b hb
      have ha2 := (List.mem_filter.mp ha).2
      have hb2 := (List.mem_filter.mp hb).2
      simp only [hP, decide_eq_true_eq] at ha2 hb2
      simp only [scoreDesc, ha2, hb2, le_refl]
    have hsub : (List.filter P (keep.map f)).Sublist sorted :=
      List.sublist_insertionSort hpair (List.filter_sublist _)
    have hidem : List.filter P (List.filter P (keep.map f)) = List.filter P (keep.map f) := by
      rw [List.filter_filter]
      simp
    have hsub2 : (List.filter P (keep.map f)).Sublist (List.filter P sorted) := by
      rw [← hidem]
      exact List.Sublist.filter P hsub
    have hlen : (List.filter P (keep.map f)).length = (List.filter P sorted).length := by
      rw [← List.countP_eq_length_filter, ← List.countP_eq_length_filter]
      exact (hperm.countP_eq P).symm
    have heq : List.filter P (keep.map f) = List.filter P sorted :=
      hsub2.eq_of_length hlen
    have hPf : (P ∘ f) = fun p => decide (scoreOf q p = n) := by
      funext p
      simp only [Function.comp, hP, hf]
    have hR : List.filter P (keep.map f)
        = (keep.filter (fun p => decide (scoreOf q p = n))).map f := by
      rw [List.filter_map, hPf]
    clear_value sorted
    have hgf : ∀ x ∈ sorted,
        ((fun p => decide (scoreOf q p = n)) ∘ (fun x : Listing × Nat => x.1)) x = P x := by
      intro x hx
      simp only [Function.comp, hP, hmem2 x hx]
    have hcomp : ((fun x : Listing × Nat => x.1) ∘ f) = id := rfl
    calc (sorted.map (fun x => x.1)).filter (fun p => decide (scoreOf q p = n))
        = (sorted.filter
            ((fun p => decide (scoreOf q p = n)) ∘ (fun x : Listing × Nat => x.1))).map
            (fun x => x.1) := List.filter_map _ _
      _ = (sorted.filter P).map (fun x => x.1) := by rw [List.filter_congr hgf]
      _ = (List.filter P (keep.map f)).map (fun x => x.1) := by rw [heq]
      _ = ((keep.filter (fun p => decide (scoreOf q p = n))).map f).map
            (fun x => x.1) := by rw [hR]
      _ = keep.filter (fun p => decide (scoreOf q p = n)) := by
            rw [List.map_map, hcomp, List.map_id]

/-- Witness for C6 at a concrete catalog and query. -/
theorem C6_witness :
    normalizeText "bebek".toList ≠ []
    ∧ (rank [W2] [] "bebek".toList).Perm
        ((tagFilter [] [W2]).filter
          (fun p => decide (0 < scoreOf (normalizeText "bebek".toList) p))) :=
  ⟨by decide, (C6_rank_score_order [W2] [] "bebek".toList (by decide)).1⟩

theorem strStartsWith_iff : ∀ s pre : List Char, strStartsWith s pre = true ↔ pre <+: s
  | _, [] => by simp [strStartsWith]
  | [], _ :: _ => by simp [strStartsWith]
  | c :: cs, d :: ds => by
    have ih := strStartsWith_iff cs ds
    simp only [strStartsWith, Bool.and_eq_true, beq_iff_eq, List.cons_prefix_cons]
    rw [ih]
    constructor
    · rintro ⟨h1, h2⟩
      exact ⟨h1.symm, h2⟩
    · rintro ⟨h1, h2⟩
      exact ⟨h1.symm, h2⟩

theorem strIncludes_iff : ∀ s q : List Char, strIncludes s q = true ↔ q <:+: s
  | [], q => by simp [strIncludes, List.infix_nil, List.isEmpty_iff]
  | c :: rest, q => by
    have h1 := strStartsWith_iff (c :: rest) q
    have h2 := strIncludes_iff rest q
    rw [List.infix_cons_iff]
    simp only [strIncludes, Bool.or_eq_true]
    rw [h1, h2]

theorem foldl_add_eq_sum {α : Type} : ∀ (l : List α) (g : α → Nat) (init : Nat),
    l.foldl (fun s t => s + g t) init = init + (l.map g).sum
  | [], g, init => by simp
  | a :: l, g, init => by
    simp only [List.foldl_cons, List.map_cons, List.sum_cons]
    rw [foldl_add_eq_sum l g (init + g a)]
    omega

theorem contains_eq_decide_mem {α : Type} [BEq α] [LawfulBEq α] [DecidableEq α]
    (l : List α) (a : α) : l.contains a = decide (a ∈ l) := by
  simp [List.contains, List.elem_iff]

theorem foldl_min_eq (ds : List Nat) (init : Nat) :
    ds.foldl min init = match ds.min? with | none => init | some m => min init m := by
  cases ds with
  | nil => rfl
  | cons d ds' =>
    rw [List.min?_cons']
    show List.foldl min (min init d) ds' = min init (List.foldl min d ds')
    exact List.foldl_assoc

theorem tokenBonus_eq_spec (hay : List Char) (hts : List (List Char)) (token : List Char) :
    tokenBonus hay hts token = specTokenBonus hay hts token := by
  unfold tokenBonus specTokenBonus
  have hfold : hts.foldl (fun m t => min m (levenshtein token t)) 99
      = match (hts.map (levSpec token)).min? with | none => 99 | some m => min 99 m := by
    simp only [levenshtein_eq_levSpec]
    rw [← List.foldl_map (levSpec token) min hts 99]
    exact foldl_min_eq _ _
  congr 1
  · congr 1
    · simp only [strIncludes_iff]
    · simp only [List.any_eq_true, strStartsWith_iff]
  · simp only [hfold]
    rcases hmin : (hts.map (levSpec token)).min? with _ | m
    · rfl
    · show (if min 99 m = 1 then 2 else if min 99 m = 2 then 1 else 0)
          = if m = 1 then 2 else if m = 2 then 1 else 0
      split_ifs <;> omega

set_option maxHeartbeats 2000000 in
/-- C3: the search score of a listing is exactly the specified formula: 8
for a full-query substring hit, plus the per-token substring, prefix and
edit-distance bonuses, plus twice the exact token overlap, the per-token
bonuses and the overlap bonus both applying to the same token. -/
theorem C3_score_formula (q : List Char) (p : Listing) : scoreOf q p = scoreSpec q p := by
  have h8 : (if strIncludes (haystackOf p) q then (8 : Nat) else 0)
      = if q <:+: haystackOf p then 8 else 0 := by
    simp only [strIncludes_iff]
  have hmap : tokenBonus (haystackOf p) (hayTokensOf p)
      = specTokenBonus (haystackOf p) (hayTokensOf p) :=
    funext (tokenBonus_eq_spec _ _)
  have hflt : (qTokensOf q).filter (fun token => (hayTokensOf p).contains token)
      = (qTokensOf q).filter (fun token => decide (token ∈ hayTokensOf p)) := by
    apply List.filter_congr
    intro t _
    exact contains_eq_decide_mem (hayTokensOf p) t
  unfold scoreOf scoreSpec
  rw [h8, foldl_add_eq_sum, Nat.zero_add, List.countP_eq_length_filter, ← hflt]
  simp only [hmap]

/-! Support lemmas for the popularity sorter. -/

theorem lexLe_refl : ∀ s : List Char, lexLe s s = true
  | [] => rfl
  | a :: as => by simp [lexLe, lt_irrefl, lexLe_refl as]

theorem lexLe_total : ∀ s t : List Char, lexLe s t = true ∨ lexLe t s = true
  | [], _ => Or.inl rfl
  | _ :: _, [] => Or.inr rfl
  | a :: as, b :: bs => by
    rcases lt_trichotomy a b with h | h | h
    · left
      simp [lexLe, h]
    · subst h
      rcases lexLe_total as bs with h2 | h2
      · left
        simp [lexLe, lt_irrefl, h2]
      · right
        simp [lexLe, lt_irrefl, h2]
    · right
      simp [lexLe, h]

theorem lexLe_trans : ∀ s t u : List Char,
    lexLe s t = true → lexLe t u = true → lexLe s u = true
  | [], _, _, _, _ => rfl
  | _ :: _, [], _, h1, _ => by simp [lexLe] at h1
  | _ :: _, _ :: _, [], _, h2 => by simp [lexLe] at h2
  | a :: as, b :: bs, c :: cs, h1, h2 => by
    simp only [lexLe] at h1 h2 ⊢
    by_cases hab : a < b
    · by_cases hbc : b < c
      · simp [lt_trans hab hbc]
      · by_cases hcb : c < b
        · simp [hbc, hcb] at h2
        · simp [lt_of_lt_of_le hab (not_lt.mp hcb)]
    · by_cases hba : b < a
      · simp [hab, hba] at h1
      · have hab' : a = b := le_antisymm (not_lt.mp hba) (not_lt.mp hab)
        subst hab'
        simp only [lt_irrefl, if_false] at h1
        by_cases hac : a < c
        · simp [hac]
        · by_cases hca : c < a
          · simp [hac, hca] at h2
          · have hac' : a = c := le_antisymm (not_lt.mp hca) (not_lt.mp hac)
            subst hac'
            simp only [lt_irrefl, if_false] at h2 ⊢
            exact lexLe_trans as bs cs h1 h2

theorem popLe_total : ∀ a b : Listing, popLe a b ∨ popLe b a := fun a b => by
  unfold popLe
  rcases lt_trichotomy (viewOf a) (viewOf b) with h | h | h
  · exact Or.inr (Or.inl h)
  · rcases lexLe_total (createdOf b) (createdOf a) with h2 | h2
    · exact Or.inl (Or.inr ⟨h, h2⟩)
    · exact Or.inr (Or.inr ⟨h.symm, h2⟩)
  · exact Or.inl (Or.inl h)

theorem popLe_trans : ∀ a b c : Listing, popLe a b → popLe b c → popLe a c :=
  fun a b c h1 h2 => by
    unfold popLe at h1 h2 ⊢
    rcases h1 with h1 | ⟨h1e, h1l⟩
    · rcases h2 with h2 | ⟨h2e, h2l⟩
      · exact Or.inl (lt_trans h2 h1)
      · exact Or.inl (h2e ▸ h1)
    · rcases h2 with h2 | ⟨h2e, h2l⟩
      · exact Or.inl (h1e.symm ▸ h2)
      · exact Or.inr ⟨h1e.trans h2e, lexLe_trans _ _ _ h2l h1l⟩

/-- C9: the popularity sorter orders by view count descending with ties
broken by the created_at string descending, and listings equal on both keys
keep their relative input order. -/
theorem C9_popularity_order (catalog : List Listing) :
    (sortByPopularity catalog).Pairwise popLe
    ∧ (sortByPopularity catalog).Perm catalog
    ∧ ∀ (v : Int) (t : List Char),
        (sortByPopularity catalog).filter
            (fun p => decide (viewOf p = v ∧ createdOf p = t))
          = catalog.filter (fun p => decide (viewOf p = v ∧ createdOf p = t)) := by
  refine ⟨@List.sorted_insertionSort _ popLe _ ⟨popLe_total⟩ ⟨popLe_trans⟩ catalog,
    List.perm_insertionSort popLe catalog, ?_⟩
  intro v t
  set P : Listing → Bool := fun p => decide (viewOf p = v ∧ createdOf p = t) with hP
  have hpair : (catalog.filter P).Pairwise popLe := by
    refine List.pairwise_of_forall_mem_list ?_
    intro a ha b hb
    have ha2 := (List.mem_filter.mp ha).2
    have hb2 := (List.mem_filter.mp hb).2
    simp only [hP, decide_eq_true_eq] at ha2 hb2
    unfold popLe
    right
    refine ⟨by rw [ha2.1, hb2.1], ?_⟩
    rw [ha2.2, hb2.2]
    exact lexLe_refl t
  have hsub : (catalog.filter P).Sublist (sortByPopularity catalog) :=
    List.sublist_insertionSort hpair (List.filter_sublist _)
  have hidem : List.filter P (catalog.filter P) = catalog.filter P := by
    rw [List.filter_filter]
    simp
  have hsub2 : (catalog.filter P).Sublist ((sortByPopularity catalog).filter P) := by
    rw [← hidem]
    exact List.Sublist.filter P hsub
  have hlen : (catalog.filter P).length = ((sortByPopularity catalog).filter P).length := by
    rw [← List.countP_eq_length_filter, ← List.countP_eq_length_filter]
    exact ((List.perm_insertionSort popLe catalog).countP_eq P).symm
  exact (hsub2.eq_of_length hlen).symm

/-! Support lemmas for the owner filter and the recommendation scorer. -/

theorem jsToLowerChar_ne_nil (c : Char) : jsToLowerChar c ≠ [] := by
  unfold jsToLowerChar
  split_ifs <;> simp

theorem lowerStr_ne_nil {s : List Char} (h : s ≠ []) : lowerStr s ≠ [] := by
  match s, h with
  | c :: rest, _ =>
    unfold lowerStr
    rw [List.flatMap_cons]
    intro hnil
    exact jsToLowerChar_ne_nil c (List.append_eq_nil.mp hnil).1

theorem mem_visibleProducts_owner {e : List Char} {products : List Listing} {p : Listing}
    (he : e ≠ []) (hp : p ∈ visibleProducts (some e) products) :
    ∀ ow, p.owner_email = some ow → lowerStr ow ≠ lowerStr e := by
  intro ow how
  unfold visibleProducts at hp
  have htr : jsTruthy (some e) = true := by
    simp [jsTruthy, List.isEmpty_iff, he]
  rw [htr] at hp
  simp only [Bool.not_true, Bool.false_eq_true, if_false] at hp
  have hpred := (List.mem_filter.mp hp).2
  rw [how] at hpred
  simp only [Bool.or_eq_true, Bool.not_eq_true', beq_eq_false_iff_ne, ne_eq] at hpred
  rcases hpred with hfalsy | hne
  · have : ow = [] := by
      simp [jsTruthy, List.isEmpty_iff] at hfalsy
      exact hfalsy
    subst this
    intro hcontra
    exact lowerStr_ne_nil he (by simpa [lowerStr] using hcontra.symm)
  · simpa [strOr] using hne

theorem mem_homeFiltered_visible {u : Option (List Char)} {products : List Listing}
    {ats : List (List Char)} {s : List Char} {p : Listing}
    (hp : p ∈ homeFiltered u products ats s) : p ∈ visibleProducts u products :=
  mem_tagFilter_subset (mem_rank_tagFilter hp)

theorem mem_homePopular_visible {u : Option (List Char)} {products : List Listing}
    {p : Listing} (hp : p ∈ homePopular u products) : p ∈ visibleProducts u products := by
  unfold homePopular popularProducts sortByPopularity at hp
  have h1 := List.mem_of_mem_take hp
  exact (List.mem_insertionSort popLe).mp h1

/-- C10: with a signed-in viewer, listings owned by the viewer,
case-insensitively, never appear in the home search results nor in the
popular carousel, because the catalog is filtered before tag filtering,
ranking and popularity sorting; listings with no owner email survive the
filter. -/
theorem C10_own_listings_hidden (products : List Listing) (e : List Char) (he : e ≠ []) :
    (∀ (ats : List (List Char)) (s : List Char) (p : Listing),
        p ∈ homeFiltered (some e) products ats s →
          ∀ ow, p.owner_email = some ow → lowerStr ow ≠ lowerStr e)
    ∧ (∀ p ∈ homePopular (some e) products,
        ∀ ow, p.owner_email = some ow → lowerStr ow ≠ lowerStr e)
    ∧ (∀ p ∈ products, p.owner_email = none → p ∈ visibleProducts (some e) products) := by
  refine ⟨?_, ?_, ?_⟩
  · intro ats s p hp
    exact mem_visibleProducts_owner he (mem_homeFiltered_visible hp)
  · intro p hp
    exact mem_visibleProducts_owner he (mem_homePopular_visible hp)
  · intro p hp hnone
    unfold visibleProducts
    have htr : jsTruthy (some e) = true := by
      simp [jsTruthy, List.isEmpty_iff, he]
    rw [htr]
    simp only [Bool.not_true, Bool.false_eq_true, if_false]
    refine List.mem_filter.mpr ⟨hp, ?_⟩
    rw [hnone]
    simp [jsTruthy]

/-- Witness for C10 at a concrete viewer and catalog. -/
theorem C10_witness :
    "v@x".toList ≠ ([] : List Char)
    ∧ W2 ∈ [W2]
    ∧ W2.owner_email = none
    ∧ W2 ∈ visibleProducts (some "v@x".toList) [W2] :=
  ⟨by decide, by decide, by decide,
    (C10_own_listings_hidden [W2] "v@x".toList (by decide)).2.2 W2 (by decide) (by decide)⟩

theorem mem_recommend_candidates {allProducts : List Listing} {product : Listing}
    {safeId : List Char} {recentIds rentedProductIds : List (List Char)}
    {recentProducts : List Listing} {currentUserEmail : Option (List Char)} {p : Listing}
    (hp : p ∈ recommend allProducts product safeId recentIds rentedProductIds recentProducts
      currentUserEmail) :
    p ∈ recommendCandidates allProducts safeId recentIds rentedProductIds currentUserEmail := by
  unfold recommend at hp
  by_cases hz : allProducts.isEmpty
  · rw [if_pos hz] at hp
    simp at hp
  · rw [if_neg hz] at hp
    have h1 := List.mem_of_mem_take hp
    rcases List.mem_map.mp h1 with ⟨x, hx, rfl⟩
    have hx1 := (List.mem_insertionSort recScoreDesc).mp hx
    rcases List.mem_map.mp hx1 with ⟨p', hp', rfl⟩
    exact hp'

theorem recommendCandidates_spec {allProducts : List Listing} {safeId : List Char}
    {recentIds rentedProductIds : List (List Char)} {currentUserEmail : Option (List Char)}
    {p : Listing}
    (hp : p ∈ recommendCandidates allProducts safeId recentIds rentedProductIds
      currentUserEmail) :
    p.id ≠ safeId ∧ p.id ∉ recentIds ∧ p.id ∉ rentedProductIds
    ∧ ∀ v, currentUserEmail = some v → v ≠ [] →
        ∀ ow, p.owner_email = some ow → lowerStr ow ≠ lowerStr v := by
  have hpred := (List.mem_filter.mp hp).2
  simp only [Bool.and_eq_true, Bool.not_eq_true'] at hpred
  obtain ⟨hexc, hown⟩ := hpred
  have hexc2 : p.id ∉ safeId :: (recentIds ++ rentedProductIds) := by
    intro hmem
    rw [contains_eq_decide_mem] at hexc
    simp only [decide_eq_false_iff_not] at hexc
    exact hexc hmem
  refine ⟨?_, ?_, ?_, ?_⟩
  · intro h
    exact hexc2 (h ▸ List.mem_cons_self _ _)
  · intro h
    exact hexc2 (List.mem_cons_of_mem _ (List.mem_append_left _ h))
  · intro h
    exact hexc2 (List.mem_cons_of_mem _ (List.mem_append_right _ h))
  · intro v hv hvne ow how
    rw [hv, how] at hown
    have htr : jsTruthy (some v) = true := by
      simp [jsTruthy, List.isEmpty_iff, hvne]
    rw [htr] at hown
    simp only [Bool.true_and] at hown
    by_cases howne : ow = []
    · subst howne
      intro hcontra
      exact lowerStr_ne_nil hvne (by simpa [lowerStr, strOr] using hcontra.symm)
    · have htr2 : jsTruthy (some ow) = true := by
        simp [jsTruthy, List.isEmpty_iff, howne]
      rw [htr2] at hown
      simp only [Bool.true_and, beq_eq_false_iff_ne, ne_eq] at hown
      simpa [strOr] using hown

/-- C2: the recommendation output never contains the focal listing, any
recently viewed id, any rented id, nor a listing owned by the signed-in
viewer compared case-insensitively. -/
theorem C2_recommend_exclusions (allProducts : List Listing) (product : Listing)
    (safeId : List Char) (recentIds rentedProductIds : List (List Char))
    (recentProducts : List Listing) (currentUserEmail : Option (List Char))
    (hfocal : product.id = safeId) :
    ∀ p ∈ recommend allProducts product safeId recentIds rentedProductIds recentProducts
        currentUserEmail,
      p.id ≠ product.id ∧ p.id ∉ recentIds ∧ p.id ∉ rentedProductIds
      ∧ ∀ v, currentUserEmail = some v → v ≠ [] →
          ∀ ow, p.owner_email = some ow → lowerStr ow ≠ lowerStr v := by
  intro p hp
  have h := recommendCandidates_spec (mem_recommend_candidates hp)
  exact ⟨hfocal ▸ h.1, h.2⟩

/-- Witness for C2 at a concrete recommendation context. -/
theorem C2_witness :
    W3.id = "w3".toList
    ∧ W2 ∈ recommend [W3, W2] W3 "w3".toList [] [] [] none
    ∧ (W2.id ≠ W3.id ∧ W2.id ∉ ([] : List (List Char)) ∧ W2.id ∉ ([] : List (List Char))
       ∧ ∀ v, (none : Option (List Char)) = some v → v ≠ [] →
           ∀ ow, W2.owner_email = some ow → lowerStr ow ≠ lowerStr v) :=
  ⟨by decide, by decide,
    C2_recommend_exclusions [W3, W2] W3 "w3".toList [] [] [] none (by decide) W2 (by decide)⟩

theorem foldl_count_q {α : Type} : ∀ (l : List α) (pred : α → Bool) (init : ℚ),
    l.foldl (fun acc t => acc + if pred t then 1 else 0) init
      = init + (l.countP pred : ℚ)
  | [], pred, init => by simp
  | a :: l, pred, init => by
    simp only [List.foldl_cons, List.countP_cons]
    rw [foldl_count_q l pred (init + if pred a then 1 else 0)]
    by_cases h : pred a
    · simp only [h, if_true, Nat.cast_add, Nat.cast_one]
      ring
    · simp [h]

/-- C4: for every listing surviving the exclusion and ownership filters, the
recommendation score is the viewed-tag overlap times 2 plus the current-tag
overlap times 3 plus the price score; the price score equals
max 0 (3 - 3 per-unit price deviation), always lies in the interval from 0
to 3, and its denominator max(focal price, 1) is at least 1, so it is
well-defined even for a zero-price focal listing. -/
theorem C4_recommend_score_formula (product : Listing) (recentProducts : List Listing)
    (allProducts : List Listing) (safeId : List Char)
    (recentIds rentedProductIds : List (List Char)) (currentUserEmail : Option (List Char)) :
    ∀ p ∈ recommendCandidates allProducts safeId recentIds rentedProductIds currentUserEmail,
      recommendScore product recentProducts p
          = ((p.tags.getD []).countP
                (fun t => decide (t ∈ viewedTagsOf product recentProducts)) : ℚ) * 2
            + ((p.tags.getD []).countP (fun t => decide (t ∈ product.tags.getD [])) : ℚ) * 3
            + priceScoreOf product p
      ∧ priceScoreOf product p
          = max 0 (3 - 3 * |p.daily_price - product.daily_price| / max product.daily_price 1)
      ∧ 0 ≤ priceScoreOf product p ∧ priceScoreOf product p ≤ 3
      ∧ (1 : ℚ) ≤ max product.daily_price 1 := by
  intro p _
  have hm : (0 : ℚ) < max product.daily_price 1 :=
    lt_of_lt_of_le one_pos (le_max_right _ _)
  refine ⟨?_, ?_, le_max_left _ _, ?_, le_max_right _ _⟩
  · simp only [recommendScore]
    rw [foldl_count_q, foldl_count_q, zero_add, zero_add]
    have h1 : (p.tags.getD []).countP
          (fun t => (viewedTagsOf product recentProducts).contains t)
        = (p.tags.getD []).countP
          (fun t => decide (t ∈ viewedTagsOf product recentProducts)) :=
      List.countP_congr (fun x _ => by rw [contains_eq_decide_mem])
    have h2 : (p.tags.getD []).countP (fun t => (product.tags.getD []).contains t)
        = (p.tags.getD []).countP (fun t => decide (t ∈ product.tags.getD [])) :=
      List.countP_congr (fun x _ => by rw [contains_eq_decide_mem])
    rw [h1, h2]
  · unfold priceScoreOf
    congr 1
    ring
  · unfold priceScoreOf
    apply max_le
    · norm_num
    · have habs : 0 ≤ |p.daily_price - product.daily_price| / max product.daily_price 1 * 3 :=
        mul_nonneg (div_nonneg (abs_nonneg _) (le_of_lt hm)) (by norm_num)
      linarith

/-- Witness for C4 at a concrete candidate. -/
theorem C4_witness :
    W2 ∈ recommendCandidates [W2] "w3".toList [] [] none
    ∧ (0 : ℚ) ≤ priceScoreOf W3 W2 :=
  ⟨by decide,
    (C4_recommend_score_formula W3 [] [W2] "w3".toList [] [] none W2 (by decide)).2.2.1⟩

/-- C5 as stated is false on the code: with a latest rental of status
rejected and an earlier rental of status approved for the same listing, the
listing id is still excluded, while the claim requires that exclusion hold
exactly when the latest known rental status is not rejected. -/
theorem C5_counterexample :
    ¬(∀ (rentals : List RentalRecord) (pid : List Char),
        pid ∈ rentedIdsOf rentals ↔ latestNonRejected rentals pid = true) := by
  intro h
  have h2 := (h [⟨some "p".toList, some "rejected".toList⟩,
      ⟨some "p".toList, some "approved".toList⟩] "p".toList).mp (by decide)
  exact absurd h2 (by decide)

/-- C5 amended: a listing id enters the rental exclusion set exactly when
some rental record of the viewer carries that id, non-empty, with a status
whose lowercase form is not rejected; the latest record has no special
role. -/
theorem C5_amended_exclusion (rentals : List RentalRecord) (pid : List Char) :
    pid ∈ rentedIdsOf rentals ↔
      ∃ r ∈ rentals, r.product_id = some pid ∧ pid ≠ []
        ∧ lowerStr (strOr r.status) ≠ "rejected".toList := by
  unfold rentedIdsOf
  rw [List.mem_dedup]
  simp only [List.mem_map, List.mem_filter]
  constructor
  · rintro ⟨r, ⟨⟨hr, hf⟩, hg⟩, hid⟩
    rcases hpid : r.product_id with _ | s
    · rw [hpid] at hf
      simp [jsTruthy] at hf
    · rw [hpid] at hf hid
      simp only [strOr, Option.getD_some] at hid
      subst hid
      refine ⟨r, hr, hpid, ?_, ?_⟩
      · simpa [jsTruthy, List.isEmpty_iff] using hf
      · simpa [Bool.not_eq_true', beq_eq_false_iff_ne, ne_eq] using hg
  · rintro ⟨r, hr, hpid, hne, hst⟩
    refine ⟨r, ⟨⟨hr, ?_⟩, ?_⟩, ?_⟩
    · rw [hpid]
      simpa [jsTruthy, List.isEmpty_iff] using hne
    · simpa [Bool.not_eq_true', beq_eq_false_iff_ne, ne_eq] using hst
    · rw [hpid]
      rfl

end Ebeveyn
